import Mathlib

/-!
Verification development for the rendering and image-comparison core of the
tev image viewer (files `ImageCanvas.cpp`, `ImageViewer.cpp`, `UberShader.cpp`
and the headers `ImageViewer.h`, `CropButton.h`).

The C++ code is shallowly embedded: machine floats are idealised as real
numbers, per-pixel loops become closed-form functions of the pixel
coordinates, and stateful orchestration becomes explicit argument passing.
Enumerations become inductive types together with the integer codes that the
C++ `enum` values denote.
-/

namespace Tev

/-- The tonemap operators of `ETonemap` (SRGB, Gamma, FalseColor,
PositiveNegative), in declaration order. -/
inductive ETonemap where
  | SRGB
  | Gamma
  | FalseColor
  | PositiveNegative
  deriving DecidableEq

/-- The metric operators of `EMetric`, in the order of the `switch` in
`ImageCanvas::applyMetric`. -/
inductive EMetric where
  | Error
  | AbsoluteError
  | SquaredError
  | RelativeAbsoluteError
  | RelativeSquaredError
  | RelativeSquaredError2
  | LogAbsoluteError
  deriving DecidableEq

/-- The histogram spaces of `EHistogramSpace` (log or linear bucketing). -/
inductive EHistogramSpace where
  | Log
  | Linear
  deriving DecidableEq

/-- Integer code of a tonemap value, as used by the C++ `enum` (declaration
order starting at 0). -/
def ETonemap.code : ETonemap → ℕ
  | .SRGB => 0
  | .Gamma => 1
  | .FalseColor => 2
  | .PositiveNegative => 3

/-- Integer code of a metric value, as used by the C++ `enum` (declaration
order starting at 0). -/
def EMetric.code : EMetric → ℕ
  | .Error => 0
  | .AbsoluteError => 1
  | .SquaredError => 2
  | .RelativeAbsoluteError => 3
  | .RelativeSquaredError => 4
  | .RelativeSquaredError2 => 5
  | .LogAbsoluteError => 6

/-- Integer code of a histogram-space value. Modelled from the spec: the
enum's numeric values are not among the provided sources; declaration order
starting at 0 is assumed, and only injectivity of the assignment matters for
the properties proved below. -/
def EHistogramSpace.code : EHistogramSpace → ℕ
  | .Log => 0
  | .Linear => 1

/-- An RGB triplet of (idealised) float components, `Vector3f` restricted to
the three colour components. -/
abbrev Vec3 : Type := ℝ × ℝ × ℝ

/-- Componentwise access used below for readability. -/
def Vec3.x (v : Vec3) : ℝ := v.1

/-- Second component of a `Vec3`. -/
def Vec3.y (v : Vec3) : ℝ := v.2.1

/-- Third component of a `Vec3`. -/
def Vec3.z (v : Vec3) : ℝ := v.2.2

/-- Eigen's `Vector3f::mean()`: the average of the three components. -/
noncomputable def Vec3.mean (v : Vec3) : ℝ := (v.x + v.y + v.z) / 3

/-- `ImageCanvas::applyMetric(float image, float reference, EMetric metric)`:
the scalar metric switch from `ImageCanvas.cpp`. Note that the
`RelativeSquaredError2` case returns `0.f` unconditionally (that metric is
computed jointly over a channel triple elsewhere, not per scalar). The C++
constant `0.01f` is idealised as `1 / 100` and `log` as the real logarithm. -/
noncomputable def applyMetric (image reference : ℝ) (metric : EMetric) : ℝ :=
  let diff := image - reference
  match metric with
  | .Error => diff
  | .AbsoluteError => |diff|
  | .SquaredError => diff * diff
  | .RelativeAbsoluteError => |diff| / (reference + 1 / 100)
  | .RelativeSquaredError => diff * diff / (reference * reference + 1 / 100)
  | .RelativeSquaredError2 => 0
  | .LogAbsoluteError => |Real.log (1 + image) - Real.log (1 + reference)|

/-- `ImageCanvas::applyMetric` with the C++ `enum` argument taken as a raw
integer code, including the `default:` case, which throws
`runtime_error{"Invalid metric selected."}`; the throw is embedded as
`Except.error` of the exception message. -/
noncomputable def applyMetricE (image reference : ℝ) (metric : ℤ) :
    Except String ℝ :=
  let diff := image - reference
  if metric = 0 then .ok diff
  else if metric = 1 then .ok |diff|
  else if metric = 2 then .ok (diff * diff)
  else if metric = 3 then .ok (|diff| / (reference + 1 / 100))
  else if metric = 4 then .ok (diff * diff / (reference * reference + 1 / 100))
  else if metric = 5 then .ok 0
  else if metric = 6 then
    .ok |Real.log (1 + image) - Real.log (1 + reference)|
  else .error "Invalid metric selected."

/-- Modelled from the spec: `toSRGB` lives in `Common.h`, which is not among
the provided sources. The spec describes the per-channel linear-to-sRGB curve
as piecewise (linear below `0.0031308`, power curve `1/2.4` above, with
`0.055 / 1.055` offset scaling), and the GPU twin in `UberShader.cpp` (which
must be numerically consistent with the CPU path) additionally clamps inputs
into `[0, 1]` first; that shader routine is reproduced here. -/
noncomputable def toSRGB (linear : ℝ) : ℝ :=
  if 1 < linear then 1
  else if linear < 0 then 0
  else if linear < 0.0031308 then 12.92 * linear
  else 1.055 * linear ^ ((1 : ℝ) / 2.4) - 0.055

/-- The lambda `falseColor` inside `ImageCanvas::applyTonemap`: clamp-index
lookup into the turbo colormap data `fcd` (a flat list of 4 floats per entry).
The C++ `(int)` cast truncates toward zero. -/
noncomputable def cppTruncInt (x : ℝ) : ℤ := if 0 ≤ x then ⌊x⌋ else ⌈x⌉

/-- The `clamp(v, lo, hi)` helper: `v` forced into the interval `[lo, hi]`. -/
def clampZ (v lo hi : ℤ) : ℤ := max lo (min v hi)

/-- Lookup of the false-color map. The table `colormap::turbo()` lives in
`FalseColor.h`, which is not among the provided sources; it is therefore taken
as an explicit parameter `fcd` (its flat float data, 4 entries per colour). -/
noncomputable def falseColorLookup (fcd : List ℝ) (linear : ℝ) : Vec3 :=
  let quarter : ℤ := (fcd.length : ℤ) / 4
  let start := (4 * clampZ (cppTruncInt (linear * quarter)) 0 (quarter - 1)).toNat
  (fcd.getD start 0, fcd.getD (start + 1) 0, fcd.getD (start + 2) 0)

/-- `ImageCanvas::applyTonemap(const Vector3f& value, float gamma, ETonemap
tonemap)`. Every branch's result is passed through
`result.cwiseMax(Vector3f::Zero()).cwiseMin(Vector3f::Ones())` before return.
`log2` is the base-2 logarithm and `pow(value, 1/gamma)` the real power
function; the turbo colormap is the parameter `fcd` (see
`falseColorLookup`). -/
noncomputable def applyTonemap (fcd : List ℝ) (value : Vec3) (gamma : ℝ)
    (tonemap : ETonemap) : Vec3 :=
  let result : Vec3 :=
    match tonemap with
    | .SRGB => (toSRGB value.x, toSRGB value.y, toSRGB value.z)
    | .Gamma =>
        (value.x ^ (1 / gamma), value.y ^ (1 / gamma), value.z ^ (1 / gamma))
    | .FalseColor =>
        falseColorLookup fcd (Real.logb 2 (value.mean + 0.03125) / 10 + 0.5)
    | .PositiveNegative =>
        (-2 * (Vec3.mean (min value.x 0, min value.y 0, min value.z 0)),
          2 * (Vec3.mean (max value.x 0, max value.y 0, max value.z 0)), 0)
  (min (max result.x 0) 1, min (max result.y 0) 1, min (max result.z 0) 1)

/-- `ImageCanvas::applyTonemap` with the C++ `enum` argument taken as a raw
integer code, including the `default:` case, which throws
`runtime_error{"Invalid tonemap selected."}`. -/
noncomputable def applyTonemapE (fcd : List ℝ) (value : Vec3) (gamma : ℝ)
    (tonemap : ℤ) : Except String Vec3 :=
  if tonemap = 0 then .ok (applyTonemap fcd value gamma .SRGB)
  else if tonemap = 1 then .ok (applyTonemap fcd value gamma .Gamma)
  else if tonemap = 2 then .ok (applyTonemap fcd value gamma .FalseColor)
  else if tonemap = 3 then .ok (applyTonemap fcd value gamma .PositiveNegative)
  else .error "Invalid tonemap selected."

/-- The defined-case integer codes agree with the inductive embedding of the
metric switch. -/
theorem applyMetricE_code (image reference : ℝ) (m : EMetric) :
    applyMetricE image reference m.code = .ok (applyMetric image reference m) := by
  cases m <;> rfl

/-- The defined-case integer codes agree with the inductive embedding of the
tonemap switch. -/
theorem applyTonemapE_code (fcd : List ℝ) (value : Vec3) (gamma : ℝ)
    (t : ETonemap) :
    applyTonemapE fcd value gamma t.code = .ok (applyTonemap fcd value gamma t) := by
  cases t <;> rfl

/-- C1 (counterexample): for the metric `RelativeSquaredError2`, the scalar
`applyMetric` returns 0 even for `value = 1`, `reference = 0`, so
"`applyMetric(value, reference, m)` equals 0 iff `value == reference`" fails
for that metric. -/
theorem applyMetric_zero_iff_cex :
    applyMetric 1 0 EMetric.RelativeSquaredError2 = 0 ∧ (1 : ℝ) ≠ 0 :=
  ⟨rfl, one_ne_zero⟩

/-- C1 (amended): for every metric except `RelativeSquaredError2` (whose
scalar `applyMetric` returns 0 unconditionally), `applyMetric` is zero iff
`value = reference`, provided the `RelativeAbsoluteError` denominator
`reference + 0.01` is nonzero and, for `LogAbsoluteError`, both arguments
exceed `-1` (the domain on which `log(1 + x)` is well defined). -/
theorem applyMetric_zero_iff (v r : ℝ) (m : EMetric)
    (hm : m ≠ EMetric.RelativeSquaredError2)
    (hrae : m = EMetric.RelativeAbsoluteError → r + 1 / 100 ≠ 0)
    (hlog : m = EMetric.LogAbsoluteError → -1 < v ∧ -1 < r) :
    applyMetric v r m = 0 ↔ v = r := by
  cases m with
  | Error => simp [applyMetric, sub_eq_zero]
  | AbsoluteError => simp [applyMetric, abs_eq_zero, sub_eq_zero]
  | SquaredError => simp [applyMetric, mul_self_eq_zero, sub_eq_zero]
  | RelativeAbsoluteError =>
      have h := hrae rfl
      unfold applyMetric
      rw [div_eq_zero_iff, abs_eq_zero, sub_eq_zero]
      exact ⟨fun hh => hh.elim id (fun hh => absurd hh h), fun hh => Or.inl hh⟩
  | RelativeSquaredError =>
      have h : r * r + 1 / 100 ≠ 0 :=
        ne_of_gt (by have := mul_self_nonneg r; linarith)
      unfold applyMetric
      rw [div_eq_zero_iff, mul_self_eq_zero, sub_eq_zero]
      exact ⟨fun hh => hh.elim id (fun hh => absurd hh h), fun hh => Or.inl hh⟩
  | RelativeSquaredError2 => exact absurd rfl hm
  | LogAbsoluteError =>
      obtain ⟨hv, hr⟩ := hlog rfl
      unfold applyMetric
      rw [abs_eq_zero, sub_eq_zero]
      constructor
      · intro h
        have h1 : (1 : ℝ) + v ∈ Set.Ioi (0 : ℝ) := Set.mem_Ioi.mpr (by linarith)
        have h2 : (1 : ℝ) + r ∈ Set.Ioi (0 : ℝ) := Set.mem_Ioi.mpr (by linarith)
        have := Real.log_injOn_pos h1 h2 h
        linarith
      · intro h
        rw [h]

/-- C1 (witness): the amended equivalence applied at `value = 2`,
`reference = 3`, metric `AbsoluteError`. -/
theorem applyMetric_zero_iff_witness :
    EMetric.AbsoluteError ≠ EMetric.RelativeSquaredError2 ∧
      (applyMetric 2 3 EMetric.AbsoluteError = 0 ↔ (2 : ℝ) = 3) :=
  ⟨by decide, applyMetric_zero_iff 2 3 EMetric.AbsoluteError (by decide)
    (fun h => absurd h (by decide)) (fun h => absurd h (by decide))⟩

/-- C9: calling the tonemap switch with a code outside the four defined
operators, or the metric switch with a code outside the seven defined metrics,
reaches the `default:` case and throws ("Invalid tonemap selected." /
"Invalid metric selected."); no out-of-range code produces an `ok` result. -/
theorem invalid_enum_throws (fcd : List ℝ) (v : Vec3) (g a b : ℝ)
    (tcode mcode : ℤ) (ht : tcode < 0 ∨ 3 < tcode) (hm : mcode < 0 ∨ 6 < mcode) :
    applyTonemapE fcd v g tcode = .error "Invalid tonemap selected." ∧
      applyMetricE a b mcode = .error "Invalid metric selected." := by
  constructor
  · unfold applyTonemapE
    rw [if_neg (by omega : ¬tcode = 0), if_neg (by omega : ¬tcode = 1),
      if_neg (by omega : ¬tcode = 2), if_neg (by omega : ¬tcode = 3)]
  · unfold applyMetricE
    rw [if_neg (by omega : ¬mcode = 0), if_neg (by omega : ¬mcode = 1),
      if_neg (by omega : ¬mcode = 2), if_neg (by omega : ¬mcode = 3),
      if_neg (by omega : ¬mcode = 4), if_neg (by omega : ¬mcode = 5),
      if_neg (by omega : ¬mcode = 6)]

/-- The pan/zoom state `mTransform`. The canvas only ever composes scalings
and translations (no rotation), so an affine transform is represented by a
uniform scale factor and a translation vector. -/
structure Transform2 where
  scale : ℝ
  translation : ℝ × ℝ

/-- `ImageCanvas::fitImageToScreen(const Image&)`: the image size is first
converted to nanogui units (divided by the pixel ratio), and the transform is
set to the pure scaling by the smaller of the two per-axis ratios
`canvasSize / nanoguiImageSize` (`minCoeff`), with no translation. -/
noncomputable def fitImageToScreen (pixelRatio : ℝ) (canvasSize imageSize : ℝ × ℝ) :
    Transform2 :=
  let nanoguiImageSize := (imageSize.1 / pixelRatio, imageSize.2 / pixelRatio)
  { scale := min (canvasSize.1 / nanoguiImageSize.1) (canvasSize.2 / nanoguiImageSize.2),
    translation := (0, 0) }

/-- C6: `fitImageToScreen` sets the transform to the uniform scale
`min(canvasSize.x / imageSize.x, canvasSize.y / imageSize.y)` — with the image
size measured in canvas (nanogui) units, i.e. divided by the pixel ratio —
discarding any previous translation, and the scaled image fits the canvas
componentwise with at least one axis exactly equal, for every image of
positive size. -/
theorem fitImageToScreen_fits (pr cx cy ix iy : ℝ)
    (hpr : 0 < pr) (hix : 0 < ix) (hiy : 0 < iy) :
    (fitImageToScreen pr (cx, cy) (ix, iy)).translation = (0, 0) ∧
      (fitImageToScreen pr (cx, cy) (ix, iy)).scale
        = min (cx / (ix / pr)) (cy / (iy / pr)) ∧
      (ix / pr) * (fitImageToScreen pr (cx, cy) (ix, iy)).scale ≤ cx ∧
      (iy / pr) * (fitImageToScreen pr (cx, cy) (ix, iy)).scale ≤ cy ∧
      ((ix / pr) * (fitImageToScreen pr (cx, cy) (ix, iy)).scale = cx ∨
        (iy / pr) * (fitImageToScreen pr (cx, cy) (ix, iy)).scale = cy) := by
  have hnx : 0 < ix / pr := div_pos hix hpr
  have hny : 0 < iy / pr := div_pos hiy hpr
  have hx : (ix / pr) * (cx / (ix / pr)) = cx := by
    rw [mul_comm, div_mul_cancel₀ cx (ne_of_gt hnx)]
  have hy : (iy / pr) * (cy / (iy / pr)) = cy := by
    rw [mul_comm, div_mul_cancel₀ cy (ne_of_gt hny)]
  refine ⟨rfl, rfl, ?_, ?_, ?_⟩
  · calc (ix / pr) * min (cx / (ix / pr)) (cy / (iy / pr))
        ≤ (ix / pr) * (cx / (ix / pr)) :=
          mul_le_mul_of_nonneg_left (min_le_left _ _) (le_of_lt hnx)
      _ = cx := hx
  · calc (iy / pr) * min (cx / (ix / pr)) (cy / (iy / pr))
        ≤ (iy / pr) * (cy / (iy / pr)) :=
          mul_le_mul_of_nonneg_left (min_le_right _ _) (le_of_lt hny)
      _ = cy := hy
  · rcases min_choice (cx / (ix / pr)) (cy / (iy / pr)) with h | h
    · exact Or.inl (by rw [fitImageToScreen, h]; exact hx)
    · exact Or.inr (by rw [fitImageToScreen, h]; exact hy)

/-- C6 (witness): fitting a 10 by 10 image into a 100 by 50 canvas at pixel
ratio 1. -/
theorem fitImageToScreen_fits_witness :
    (0 : ℝ) < 1 ∧ (0 : ℝ) < 10 ∧
      ((fitImageToScreen 1 (100, 50) (10, 10)).translation = (0, 0) ∧
        (fitImageToScreen 1 (100, 50) (10, 10)).scale
          = min ((100 : ℝ) / (10 / 1)) ((50 : ℝ) / (10 / 1)) ∧
        ((10 : ℝ) / 1) * (fitImageToScreen 1 (100, 50) (10, 10)).scale ≤ 100 ∧
        ((10 : ℝ) / 1) * (fitImageToScreen 1 (100, 50) (10, 10)).scale ≤ 50 ∧
        (((10 : ℝ) / 1) * (fitImageToScreen 1 (100, 50) (10, 10)).scale = 100 ∨
          ((10 : ℝ) / 1) * (fitImageToScreen 1 (100, 50) (10, 10)).scale = 50)) :=
  ⟨one_pos, by norm_num,
    fitImageToScreen_fits 1 100 50 10 10 one_pos (by norm_num) (by norm_num)⟩

/-- `ImageCanvas::pixelOffset(const Vector2i& size)`: a half-pixel translation
applied only on axes of even resolution — `+0.5` on the x axis and `-0.5` on
the y axis — plus the constant `0.1111111f` on both axes. -/
noncomputable def pixelOffset (size : ℤ × ℤ) : ℝ × ℝ :=
  ((if size.1 % 2 = 0 then 0.5 else 0) + 0.1111111,
    (if size.2 % 2 = 0 then -0.5 else 0) + 0.1111111)

/-- C7 (counterexample): for the even resolution 2, the y component of the
pixel offset is `-0.5 + 0.1111111`, not the `0.5 + 0.1111111` the claim's
"adds 0.5 on an axis exactly when that axis's resolution is even" demands. -/
theorem pixelOffset_cex : (pixelOffset (2, 2)).2 ≠ 0.5 + 0.1111111 := by
  norm_num [pixelOffset]

/-- C7 (amended): the half-pixel offset adds `0.5` on the x axis and `-0.5` on
the y axis exactly when that axis's resolution is even (and 0 when it is odd),
plus the constant fractional offset `0.1111111` on both axes. -/
theorem pixelOffset_eval (w h : ℤ) :
    (pixelOffset (w, h)).1 = (if Even w then 0.5 else 0) + 0.1111111 ∧
      (pixelOffset (w, h)).2 = (if Even h then -0.5 else 0) + 0.1111111 := by
  constructor <;> simp [pixelOffset, Int.even_iff]

/-- Decimal digit character, used to model `tfm::format("%d", ...)` (the
tinyformat library is not among the provided sources). Only arguments below
10 occur. -/
def digitChar10 (d : ℕ) : Char :=
  ['0', '1', '2', '3', '4', '5', '6', '7', '8'].getD d '9'

/-- Modelled from the spec: decimal digit string of a nonnegative integer, the
output of `tfm::format("%d", n)` for the (monotonically increasing, hence
nonnegative) image ids and the small enum codes. -/
def natDigits (n : ℕ) : List Char :=
  if _h : n < 10 then [digitChar10 n]
  else natDigits (n / 10) ++ [digitChar10 (n % 10)]
decreasing_by exact Nat.div_lt_self (by omega) (by omega)

/-- Digit characters are never the dash separator. -/
theorem digitChar10_ne_dash (k : ℕ) : digitChar10 k ≠ '-' := by
  unfold digitChar10
  rcases Nat.lt_or_ge k 9 with h | h
  · have h9 : k < (['0', '1', '2', '3', '4', '5', '6', '7', '8'] :
        List Char).length := by simpa using h
    rw [List.getD_eq_getElem _ _ h9]
    exact fun hc => absurd (hc ▸ List.getElem_mem h9) (by decide)
  · rw [List.getD_eq_default _ _ (by simpa using h)]
    decide

/-- Digit characters determine digits below 10. -/
theorem digitChar10_inj : ∀ a < 10, ∀ b < 10,
    digitChar10 a = digitChar10 b → a = b := by decide

/-- No decimal digit string contains the dash separator. -/
theorem natDigits_no_dash (n : ℕ) : '-' ∉ natDigits n := by
  induction n using Nat.strong_induction_on with
  | _ n ih =>
    rw [natDigits]
    split
    · intro hmem
      exact digitChar10_ne_dash n (List.mem_singleton.mp hmem).symm
    · intro hmem
      rcases List.mem_append.mp hmem with h1 | h2
      · exact ih (n / 10) (Nat.div_lt_self (by omega) (by omega)) h1
      · exact digitChar10_ne_dash (n % 10) (List.mem_singleton.mp h2).symm

/-- Decimal digit strings are nonempty. -/
theorem natDigits_ne_nil (n : ℕ) : natDigits n ≠ [] := by
  rw [natDigits]
  split
  · simp
  · simp

/-- Unfolding equation of `natDigits` for one-digit numbers. -/
theorem natDigits_lt {n : ℕ} (h : n < 10) : natDigits n = [digitChar10 n] := by
  rw [natDigits, dif_pos h]

/-- Unfolding equation of `natDigits` for multi-digit numbers. -/
theorem natDigits_ge {n : ℕ} (h : ¬n < 10) :
    natDigits n = natDigits (n / 10) ++ [digitChar10 (n % 10)] := by
  conv_lhs => rw [natDigits]
  rw [dif_neg h]

/-- Decimal representation is injective. -/
theorem natDigits_inj (m : ℕ) : ∀ n, natDigits m = natDigits n → m = n := by
  induction m using Nat.strong_induction_on with
  | _ m ih =>
    intro n h
    by_cases hm : m < 10 <;> by_cases hn : n < 10
    · rw [natDigits_lt hm, natDigits_lt hn] at h
      exact digitChar10_inj m hm n hn (List.singleton_injective h)
    · exfalso
      rw [natDigits_lt hm, natDigits_ge hn] at h
      have hlen := congrArg List.length h
      simp only [List.length_singleton, List.length_append] at hlen
      exact natDigits_ne_nil (n / 10) (List.length_eq_zero.mp (by omega))
    · exfalso
      rw [natDigits_ge hm, natDigits_lt hn] at h
      have hlen := congrArg List.length h
      simp only [List.length_singleton, List.length_append] at hlen
      exact natDigits_ne_nil (m / 10) (List.length_eq_zero.mp (by omega))
    · rw [natDigits_ge hm, natDigits_ge hn] at h
      obtain ⟨hq, hr⟩ := List.append_inj' h (by simp)
      have h1 : m / 10 = n / 10 :=
        ih (m / 10) (Nat.div_lt_self (by omega) (by omega)) (n / 10) hq
      have h2 : m % 10 = n % 10 :=
        digitChar10_inj (m % 10) (Nat.mod_lt m (by omega)) (n % 10)
          (Nat.mod_lt n (by omega)) (List.singleton_injective hr)
      omega

/-- Splitting a character list at a dash whose prefix is dash-free determines
prefix and suffix. -/
theorem append_dash_inj_left {l1 l2 r1 r2 : List Char}
    (h : l1 ++ '-' :: r1 = l2 ++ '-' :: r2)
    (h1 : '-' ∉ l1) (h2 : '-' ∉ l2) : l1 = l2 ∧ r1 = r2 := by
  induction l1 generalizing l2 with
  | nil =>
    cases l2 with
    | nil => simpa using h
    | cons b bs =>
      exfalso
      simp only [List.nil_append, List.cons_append, List.cons.injEq] at h
      exact h2 (h.1 ▸ List.mem_cons_self b bs)
  | cons a as ih =>
    cases l2 with
    | nil =>
      exfalso
      simp only [List.nil_append, List.cons_append, List.cons.injEq] at h
      exact h1 (h.1.symm ▸ List.mem_cons_self a as)
    | cons b bs =>
      simp only [List.cons_append, List.cons.injEq] at h
      obtain ⟨hab, htail⟩ := h
      have := ih htail (fun hmem => h1 (List.mem_cons_of_mem a hmem))
        (fun hmem => h2 (List.mem_cons_of_mem b hmem))
      exact ⟨by rw [hab, this.1], this.2⟩

/-- Splitting a character list at a dash whose suffix is dash-free determines
prefix and suffix. -/
theorem append_dash_inj_right {l1 l2 r1 r2 : List Char}
    (h : l1 ++ '-' :: r1 = l2 ++ '-' :: r2)
    (h1 : '-' ∉ r1) (h2 : '-' ∉ r2) : l1 = l2 ∧ r1 = r2 := by
  have hrev := congrArg List.reverse h
  simp only [List.reverse_append, List.reverse_cons] at hrev
  rw [List.append_assoc, List.append_assoc, List.singleton_append,
    List.singleton_append] at hrev
  have := append_dash_inj_left hrev (by simpa using h1) (by simpa using h2)
  exact ⟨List.reverse_injective this.2, List.reverse_injective this.1⟩

/-- Regrouping an append chain with three dash separators so that the last
component is peeled off. -/
theorem regroup3 (A B C D : List Char) :
    A ++ '-' :: (B ++ '-' :: (C ++ '-' :: D)) =
      (A ++ '-' :: (B ++ '-' :: C)) ++ '-' :: D := by
  simp [List.append_assoc]

/-- Regrouping an append chain with two dash separators so that the last
component is peeled off. -/
theorem regroup2 (A B C : List Char) :
    A ++ '-' :: (B ++ '-' :: C) = (A ++ '-' :: B) ++ '-' :: C := by
  simp [List.append_assoc]

/-- Metric codes are injective. -/
theorem metricCode_inj : ∀ m1 m2 : EMetric, m1.code = m2.code → m1 = m2 := by
  intro m1 m2 h
  cases m1 <;> cases m2 <;> first | rfl | simp [EMetric.code] at h

/-- Histogram-space codes are injective. -/
theorem histogramSpaceCode_inj : ∀ s1 s2 : EHistogramSpace,
    s1.code = s2.code → s1 = s2 := by
  intro s1 s2 h
  cases s1 <;> cases s2 <;> first | rfl | simp [EHistogramSpace.code] at h

/-- The cache key built by `ImageCanvas::canvasStatistics()`:
`tfm::format("%d-%s-%d-%d-%d", image id, joined channel names, reference id,
metric, histogram space)` when a reference is set, and
`tfm::format("%d-%s-%d", image id, joined channel names, histogram space)`
when not. `canvasStatistics` reuses the `mMeanValues` entry under this key if
one exists and otherwise inserts a fresh asynchronous computation under it. -/
def statisticsKey (imageId : ℕ) (channels : String) (referenceId : Option ℕ)
    (metric : EMetric) (histogramSpace : EHistogramSpace) : String :=
  match referenceId with
  | some refId =>
      String.mk (natDigits imageId ++ '-' ::
        (channels.data ++ '-' :: (natDigits refId ++ '-' ::
          (natDigits metric.code ++ '-' :: natDigits histogramSpace.code))))
  | none =>
      String.mk (natDigits imageId ++ '-' ::
        (channels.data ++ '-' :: natDigits histogramSpace.code))

/-- C5 (counterexample): with no reference set, the cache key does not contain
the metric, so changing only the metric yields the same key and the cached
entry is reused rather than recomputed. -/
theorem statisticsKey_cex :
    statisticsKey 1 "R" none EMetric.Error EHistogramSpace.Linear =
        statisticsKey 1 "R" none EMetric.SquaredError EHistogramSpace.Linear ∧
      EMetric.Error ≠ EMetric.SquaredError :=
  ⟨rfl, by decide⟩

/-- C5 (amended): when a reference is set, two states produce the same cache
key exactly when all five components (image id, joined channel names,
reference id, metric, histogram space) coincide — so a cached entry is reused
iff none of the five changed; when no reference is set, the key omits the
reference id and the metric, so changing the metric alone reuses the cached
entry. -/
theorem statisticsKey_spec (id1 id2 r1 r2 : ℕ) (ch1 ch2 : String)
    (m1 m2 : EMetric) (hs1 hs2 : EHistogramSpace) :
    (statisticsKey id1 ch1 (some r1) m1 hs1 =
        statisticsKey id2 ch2 (some r2) m2 hs2 ↔
      (id1 = id2 ∧ ch1 = ch2 ∧ r1 = r2 ∧ m1 = m2 ∧ hs1 = hs2)) ∧
      statisticsKey id1 ch1 none m1 hs1 = statisticsKey id1 ch1 none m2 hs1 := by
  constructor
  · constructor
    · intro h
      have hd := congrArg String.data h
      simp only [statisticsKey] at hd
      obtain ⟨hid, hrest⟩ := append_dash_inj_left hd
        (natDigits_no_dash id1) (natDigits_no_dash id2)
      rw [regroup3 ch1.data (natDigits r1) (natDigits m1.code)
          (natDigits hs1.code),
        regroup3 ch2.data (natDigits r2) (natDigits m2.code)
          (natDigits hs2.code)] at hrest
      obtain ⟨hrest2, hhs⟩ := append_dash_inj_right hrest
        (natDigits_no_dash hs1.code) (natDigits_no_dash hs2.code)
      rw [regroup2 ch1.data (natDigits r1) (natDigits m1.code),
        regroup2 ch2.data (natDigits r2) (natDigits m2.code)] at hrest2
      obtain ⟨hrest3, hmc⟩ := append_dash_inj_right hrest2
        (natDigits_no_dash m1.code) (natDigits_no_dash m2.code)
      obtain ⟨hch, hr⟩ := append_dash_inj_right hrest3
        (natDigits_no_dash r1) (natDigits_no_dash r2)
      refine ⟨natDigits_inj id1 id2 hid, ?_, natDigits_inj r1 r2 hr,
        metricCode_inj m1 m2 (natDigits_inj _ _ hmc),
        histogramSpaceCode_inj hs1 hs2 (natDigits_inj _ _ hhs)⟩
      cases ch1
      cases ch2
      exact congrArg String.mk (by simpa using hch)
    · rintro ⟨rfl, rfl, rfl, rfl, rfl⟩
      rfl
  · rfl

/-- A channel as produced by the flattening step: a name together with its
per-pixel values, indexed by integer image coordinates `(x, y)` (the C++
`Channel::at({x, y})` / `Channel::eval({x, y})`; the buffer is row-major, so
the flat accessor `eval(j)` reads position `(j % width, j / width)`). -/
structure Channel where
  name : String
  eval2 : ℤ → ℤ → ℝ

instance : Inhabited Channel := ⟨⟨"", fun _ _ => 0⟩⟩

/-- The flat accessor `Channel::eval(j)` of a row-major channel of the given
width. -/
noncomputable def Channel.evalFlat (c : Channel) (width : ℕ) (j : ℕ) : ℝ :=
  c.eval2 ((j % width : ℕ) : ℤ) ((j / width : ℕ) : ℤ)

/-- An `Image` as seen by the canvas: a pixel size, the channel names of each
channel group (`Image::channelsInGroup`), the raster data of each named
channel (`Channel::eval` at integer coordinates) and the monotonically
increasing identity counter used for cache keys. -/
structure Image where
  width : ℕ
  height : ℕ
  groups : String → List String
  channelData : String → ℤ → ℤ → ℝ
  id : ℕ

/-- `Image::count()`: the number of pixels. -/
def Image.count (img : Image) : ℕ := img.width * img.height

/-- Modelled from the spec: `Channel::tail(name)` (declared in `Channel.h`,
which is not among the provided sources) is the last dot-separated component
of a channel name — the characters after the last `'.'` — e.g. `"diffuse.A"`
becomes `"A"` and a dotless name is returned unchanged. -/
def channelTail (s : String) : String :=
  String.mk ((s.data.reverse.takeWhile (fun c => c != '.')).reverse)

/-- Modelled from the spec: `toUpper` (declared in `Common.h`, which is not
among the provided sources) uppercases a string. -/
def toUpperStr (s : String) : String := String.mk (s.data.map Char.toUpper)

/-- The name given to a flattened channel:
`toUpper(Channel::tail(channelNames[i]))`. -/
def flatChannelName (s : String) : String := toUpperStr (channelTail s)

/-- `ImageCanvas::channelsFromImages(image, reference, requestedChannelGroup,
metric)`. The per-pixel filling loops are embedded as closed-form evaluation
functions: a null image yields no channels; without a reference each flattened
channel copies the image channel; with a reference, the
`RelativeSquaredError2` metric fills every channel of the group with the joint
error (sum over all channels of the group of squared differences divided by
3, over the squared mean third of the reference values plus `1e-2`), and any
other metric fills channel `i` with the metric of image against reference —
except an alpha channel (when not all channels of the group are alpha), which
is averaged, and except when the reference's group has no `i`-th channel, in
which case the reference value is absent (plain copy for alpha,
`applyMetric(value, 0)` otherwise). Reference lookups are offset by
`(reference->size() - image->size()) / 2` with C++ truncated integer
division. -/
noncomputable def channelsFromImages (image reference : Option Image)
    (requestedChannelGroup : String) (metric : EMetric) : List Channel :=
  match image with
  | none => []
  | some img =>
    let channelNames := img.groups requestedChannelGroup
    let mkName := fun i => flatChannelName (channelNames.getD i "")
    let onlyAlpha := ∀ n ∈ channelNames, flatChannelName n = "A"
    match reference with
    | none =>
        (List.range channelNames.length).map (fun i =>
          { name := mkName i,
            eval2 := fun x y => img.channelData (channelNames.getD i "") x y })
    | some ref =>
        let ox := Int.tdiv ((ref.width : ℤ) - (img.width : ℤ)) 2
        let oy := Int.tdiv ((ref.height : ℤ) - (img.height : ℤ)) 2
        let referenceChannels := ref.groups requestedChannelGroup
        if metric = EMetric.RelativeSquaredError2 then
          (List.range channelNames.length).map (fun i =>
            { name := mkName i,
              eval2 := fun x y =>
                let refMean := (∑ c ∈ Finset.range channelNames.length,
                  ref.channelData (referenceChannels.getD c "") (x + ox) (y + oy)) / 3
                let diffSquareSum := ∑ c ∈ Finset.range channelNames.length,
                  (img.channelData (channelNames.getD c "") x y -
                    ref.channelData (referenceChannels.getD c "") (x + ox) (y + oy)) ^ 2
                (diffSquareSum / 3) / (refMean * refMean + 1 / 100) })
        else
          (List.range channelNames.length).map (fun i =>
            { name := mkName i,
              eval2 := fun x y =>
                if i < referenceChannels.length then
                  if ¬onlyAlpha ∧ mkName i = "A" then
                    0.5 * (img.channelData (channelNames.getD i "") x y +
                      ref.channelData (referenceChannels.getD i "") (x + ox) (y + oy))
                  else
                    applyMetric (img.channelData (channelNames.getD i "") x y)
                      (ref.channelData (referenceChannels.getD i "") (x + ox) (y + oy))
                      metric
                else
                  if ¬onlyAlpha ∧ mkName i = "A" then
                    img.channelData (channelNames.getD i "") x y
                  else
                    applyMetric (img.channelData (channelNames.getD i "") x y) 0
                      metric })

/-- `ImageCanvas::applyHistogramSpace(float value, EHistogramSpace metric,
bool inverse)`. -/
noncomputable def applyHistogramSpace (value : ℝ) (space : EHistogramSpace)
    (inverse : Bool) : ℝ :=
  match space with
  | .Log => if inverse then Real.exp value else Real.log value
  | .Linear => value

/-- The `addition` constant of `computeCanvasStatistics`: `0.001f` in log
space, 0 in linear space. -/
noncomputable def histogramAddition (space : EHistogramSpace) : ℝ :=
  if space = .Log then 0.001 else 0

/-- The `smallest` constant of `computeCanvasStatistics`:
`applyHistogramSpace(addition, space)`. -/
noncomputable def histogramSmallest (space : EHistogramSpace) : ℝ :=
  applyHistogramSpace (histogramAddition space) space false

/-- The `symmetricOperation` lambda of `computeCanvasStatistics`: signed log
compression (or identity in linear space). -/
noncomputable def symmetricOperation (space : EHistogramSpace) (val : ℝ) : ℝ :=
  if 0 < val then
    applyHistogramSpace (val + histogramAddition space) space false -
      histogramSmallest space
  else
    -(applyHistogramSpace (-val + histogramAddition space) space false -
      histogramSmallest space)

/-- The `valToBin` lambda: transform the value into histogram space, linearly
partition the transformed `[minVal, minVal + diffVal]` range into 400 buckets
(the C++ `(int)` cast truncates toward zero), and clamp to `[0, 399]`. -/
noncomputable def valToBin (space : EHistogramSpace) (minVal diffVal : ℝ)
    (val : ℝ) : ℕ :=
  (clampZ
    (cppTruncInt (400 * (symmetricOperation space val - minVal) / diffVal))
    0 399).toNat

/-- `channel.data().maxCoeff()` over the `count` flat pixels. Eigen folds
`max` over all coefficients starting from the first; since `max` is
idempotent the fold below (which seeds with pixel 0 and revisits it) is equal
for `count ≥ 1`; `maxCoeff` on an empty buffer is a precondition violation
and is not modelled. -/
noncomputable def chanMax (c : Channel) (width count : ℕ) : ℝ :=
  (List.range count).foldl (fun a j => max a (c.evalFlat width j))
    (c.evalFlat width 0)

/-- `channel.data().minCoeff()` over the `count` flat pixels (see
`chanMax`). -/
noncomputable def chanMin (c : Channel) (width count : ℕ) : ℝ :=
  (List.range count).foldl (fun a j => min a (c.evalFlat width j))
    (c.evalFlat width 0)

/-- `channel.data().mean()` over the `count` flat pixels. -/
noncomputable def chanMean (c : Channel) (width count : ℕ) : ℝ :=
  (∑ j ∈ Finset.range count, c.evalFlat width j) / count

/-- The `maximum` accumulator of `computeCanvasStatistics`: starting from
`-infinity` (the bottom element of `WithBot ℝ`), fold `max` of the per-channel
maxima over the first `nChannels` flattened channels. -/
noncomputable def statsMaximum (used : List Channel) (width count : ℕ) :
    WithBot ℝ :=
  used.foldl (fun a c => max a ((chanMax c width count : ℝ) : WithBot ℝ)) ⊥

/-- The `minimum` accumulator: starting from `+infinity` (the top element of
`WithTop ℝ`), fold `min` of the per-channel minima. -/
noncomputable def statsMinimum (used : List Channel) (width count : ℕ) :
    WithTop ℝ :=
  used.foldl (fun a c => min a ((chanMin c width count : ℝ) : WithTop ℝ)) ⊤

/-- The `mean` accumulator: sum of the per-channel means over the first
`nChannels` flattened channels (divided by `nChannels` afterwards). -/
noncomputable def statsMeanSum (used : List Channel) (width count : ℕ) : ℝ :=
  used.foldl (fun a c => a + chanMean c width count) 0

/-- The index of the alpha channel found by `computeCanvasStatistics`: none
when every flattened channel is named "A" (alpha is then not treated
specially), otherwise the first channel named "A", if any. -/
def alphaIndex (flattened : List Channel) : Option ℕ :=
  if ∀ c ∈ flattened, c.name = "A" then none
  else flattened.findIdx? (fun c => c.name == "A")

/-- The in-place `swap(channel, flattened.back())` performed when the found
alpha channel is not already the last element: the contents of slots `k` and
`length - 1` are exchanged (no-op when `k` is the last index, mirroring the
`alphaChannel != &flattened.back()` pointer test). -/
def swapToBack {α : Type} [Inhabited α] (l : List α) (k : ℕ) : List α :=
  if k = l.length - 1 then l
  else (l.set k (l.getD (l.length - 1) default)).set (l.length - 1)
    (l.getD k default)

/-- The flattened channel vector after the alpha-to-back swap. -/
def flattenedSwapped (flattened : List Channel) : List Channel :=
  match alphaIndex flattened with
  | none => flattened
  | some k => swapToBack flattened k

/-- `nChannels`: all channels, minus one when an alpha channel was found. -/
def statsNChannels (flattened : List Channel) : ℕ :=
  match alphaIndex flattened with
  | none => flattened.length
  | some _ => flattened.length - 1

/-- The channels over which extrema and histogram columns are computed: the
first `nChannels` entries of the swapped vector. -/
def usedChannels (flattened : List Channel) : List Channel :=
  (flattenedSwapped flattened).take (statsNChannels flattened)

/-- The per-pixel histogram increment `alphaChannel ? alphaChannel->eval(j) :
1`. `alphaChannel` is a pointer into the vector captured as `&flattened[k]`
before the swap; the swap exchanges slot contents, so after a swap the pointer
denotes the channel now stored at slot `k` — the former last channel — rather
than the alpha channel. This stale-pointer behaviour is embedded faithfully:
the weight reads slot `k` of the swapped vector. -/
noncomputable def histogramWeight (flattened : List Channel) (width : ℕ)
    (j : ℕ) : ℝ :=
  match alphaIndex flattened with
  | none => 1
  | some k => ((swapToBack flattened k).getD k default).evalFlat width j

/-- One column of the histogram accumulation loop: starting from the zero
column, every pixel `j` of the channel adds its weight to its bin. -/
noncomputable def accumColumn (binOf : ℕ → ℕ) (weight : ℕ → ℝ) (count : ℕ) :
    ℕ → ℝ :=
  (List.range count).foldl
    (fun h j => Function.update h (binOf j) (h (binOf j) + weight j))
    (fun _ => 0)

/-- The float value of the `minimum` statistic as used by the binning lambdas
(finite whenever there is at least one used channel and pixel). -/
noncomputable def statsMinimumR (flattened : List Channel) (width count : ℕ) :
    ℝ :=
  WithTop.untop' 0 (statsMinimum (usedChannels flattened) width count)

/-- The float value of the `maximum` statistic as used by the binning lambdas
(finite whenever there is at least one used channel and pixel). -/
noncomputable def statsMaximumR (flattened : List Channel) (width count : ℕ) :
    ℝ :=
  WithBot.unbot' 0 (statsMaximum (usedChannels flattened) width count)

/-- Column `i` of `result->histogram` right after the accumulation loops of
`computeCanvasStatistics` — the unnormalised histogram, before the per-bin
width division and the 10th-largest spike-clip rescaling (which no claim
refers to and which are therefore not modelled). -/
noncomputable def rawHistogram (flattened : List Channel) (width count : ℕ)
    (space : EHistogramSpace) (i : ℕ) : ℕ → ℝ :=
  let minVal := symmetricOperation space (statsMinimumR flattened width count)
  let diffVal :=
    symmetricOperation space (statsMaximumR flattened width count) - minVal
  accumColumn
    (fun j => valToBin space minVal diffVal
      (((flattenedSwapped flattened).getD i default).evalFlat width j))
    (histogramWeight flattened width) count

/-- Every bin index produced by `valToBin` is below the fixed bin count
400. -/
theorem valToBin_lt (space : EHistogramSpace) (minVal diffVal val : ℝ) :
    valToBin space minVal diffVal val < 400 := by
  unfold valToBin clampZ
  have h1 : max 0 (min
      (cppTruncInt (400 * (symmetricOperation space val - minVal) / diffVal))
      399) ≤ 399 :=
    max_le (by norm_num) (min_le_right _ _)
  have h2 := Int.toNat_le_toNat h1
  omega

/-- Summing an accumulated histogram column over all 400 bins yields the sum
of the per-pixel weights: each pixel increments exactly one bin. -/
theorem sum_accumColumn (binOf : ℕ → ℕ) (weight : ℕ → ℝ) (count : ℕ)
    (hbin : ∀ j, binOf j < 400) :
    ∑ b ∈ Finset.range 400, accumColumn binOf weight count b =
      ∑ j ∈ Finset.range count, weight j := by
  induction count with
  | zero => simp [accumColumn]
  | succ n ih =>
    have hstep : accumColumn binOf weight (n + 1) =
        Function.update (accumColumn binOf weight n) (binOf n)
          (accumColumn binOf weight n (binOf n) + weight n) := by
      unfold accumColumn
      rw [List.range_succ, List.foldl_append]
      rfl
    rw [hstep, Finset.sum_update_of_mem (Finset.mem_range.mpr (hbin n)),
      Finset.sum_range_succ, ← ih,
      ← Finset.add_sum_erase _ _ (Finset.mem_range.mpr (hbin n)),
      Finset.erase_eq]
    ring

/-- Summing any raw histogram column over all 400 bins yields the sum of the
per-pixel weights. -/
theorem sum_rawHistogram (flattened : List Channel) (width count : ℕ)
    (space : EHistogramSpace) (i : ℕ) :
    ∑ b ∈ Finset.range 400, rawHistogram flattened width count space i b =
      ∑ j ∈ Finset.range count, histogramWeight flattened width j := by
  unfold rawHistogram
  exact sum_accumColumn _ _ _ (fun j => valToBin_lt _ _ _ _)

/-- When every channel is named "A", no alpha channel is singled out. -/
theorem alphaIndex_of_allA {flattened : List Channel}
    (h : ∀ c ∈ flattened, c.name = "A") : alphaIndex flattened = none := by
  unfold alphaIndex
  rw [if_pos h]

/-- When no channel is named "A", no alpha channel is found. -/
theorem alphaIndex_of_noA {flattened : List Channel}
    (h : ∀ c ∈ flattened, c.name ≠ "A") : alphaIndex flattened = none := by
  unfold alphaIndex
  split
  · rfl
  · rw [List.findIdx?_eq_none_iff]
    intro c hc
    simpa using h c hc

/-- Without a singled-out alpha channel every pixel's histogram increment is
1. -/
theorem histogramWeight_of_none {flattened : List Channel} {width j : ℕ}
    (h : alphaIndex flattened = none) :
    histogramWeight flattened width j = 1 := by
  unfold histogramWeight
  rw [h]

/-- `findIdx?` on a list whose only match is the final element finds its
index, for any start offset. -/
theorem findIdx?_append_singleton_aux (l0 : List Channel) (a : Channel)
    (ha : a.name = "A") (hl0 : ∀ c ∈ l0, c.name ≠ "A") :
    ∀ s, List.findIdx? (fun c => c.name == "A") (l0 ++ [a]) s =
      some (s + l0.length) := by
  induction l0 with
  | nil =>
    intro s
    simp [List.findIdx?_cons, ha]
  | cons c cs ih =>
    intro s
    rw [List.cons_append, List.findIdx?_cons]
    have hc : (c.name == "A") = false := by
      simpa using hl0 c (List.mem_cons_self c cs)
    rw [hc]
    simp only [if_neg Bool.false_ne_true]
    rw [ih (fun d hd => hl0 d (List.mem_cons_of_mem c hd)) (s + 1)]
    congr 1
    simp [List.length_cons]
    omega

/-- The alpha index of a channel vector whose alpha channel is last (and
unique, with at least one non-alpha channel) is the final index. -/
theorem alphaIndex_append_singleton (l0 : List Channel) (a : Channel)
    (ha : a.name = "A") (hne : l0 ≠ []) (hl0 : ∀ c ∈ l0, c.name ≠ "A") :
    alphaIndex (l0 ++ [a]) = some l0.length := by
  unfold alphaIndex
  rw [if_neg, findIdx?_append_singleton_aux l0 a ha hl0 0]
  · simp
  · intro hall
    obtain ⟨c, hc⟩ := List.exists_mem_of_ne_nil l0 hne
    exact hl0 c hc (hall c (List.mem_append_left [a] hc))

/-- With a singled-out alpha channel at slot `k`, the weight reads slot `k`
of the swapped vector. -/
theorem histogramWeight_of_some (flattened : List Channel) (width j k : ℕ)
    (h : alphaIndex flattened = some k) :
    histogramWeight flattened width j
      = ((swapToBack flattened k).getD k default).evalFlat width j := by
  unfold histogramWeight
  rw [h]

/-- When the alpha channel is the last channel, no swap occurs and the weight
pointer denotes the alpha channel itself. -/
theorem histogramWeight_alpha_last (l0 : List Channel) (a : Channel)
    (width j : ℕ) (ha : a.name = "A") (hne : l0 ≠ [])
    (hl0 : ∀ c ∈ l0, c.name ≠ "A") :
    histogramWeight (l0 ++ [a]) width j = a.evalFlat width j := by
  rw [histogramWeight_of_some (l0 ++ [a]) width j l0.length
    (alphaIndex_append_singleton l0 a ha hne hl0)]
  have hk : l0.length = (l0 ++ [a]).length - 1 := by simp
  unfold swapToBack
  rw [if_pos hk]
  have hgd : (l0 ++ [a]).getD l0.length default = a := by
    rw [List.getD_eq_getElem _ _ (by simp), List.getElem_append_right (le_refl _)]
    simp
  rw [hgd]

/-- A sample flattened luminance channel, pixel values `0, 1` on a 2 by 1
raster. -/
noncomputable def exChannelR : Channel := ⟨"R", fun x _ => (x : ℝ)⟩

/-- A sample flattened alpha channel of constant value one half. -/
noncomputable def exChannelA : Channel := ⟨"A", fun _ _ => 1 / 2⟩

/-- C3 (amended): for every statistics computation and channel column, the
sum over all 400 histogram bins of the accumulated (unnormalised) values
equals the sum of the per-pixel weights — each pixel increments exactly one
bin. The weight is 1 when no alpha channel is singled out (no channel named
"A", or all of them are), and it is the alpha channel's value whenever the
alpha channel is the unique "A"-named channel and is the last of the group
(e.g. RGBA) alongside at least one non-alpha channel — even when only one
non-alpha channel exists. (When a non-last alpha channel is swapped to the
back, the stale `alphaChannel` pointer makes the weight read the swapped-in
former last channel instead; see `histogramWeight`.) -/
theorem rawHistogram_sum_spec (flattened : List Channel) (width count : ℕ)
    (space : EHistogramSpace) (i : ℕ) :
    (∑ b ∈ Finset.range 400, rawHistogram flattened width count space i b =
        ∑ j ∈ Finset.range count, histogramWeight flattened width j) ∧
      (alphaIndex flattened = none →
        ∑ b ∈ Finset.range 400, rawHistogram flattened width count space i b =
          (count : ℝ)) ∧
      (∀ l0 a, flattened = l0 ++ [a] → a.name = "A" → l0 ≠ [] →
        (∀ c ∈ l0, c.name ≠ "A") →
        ∑ b ∈ Finset.range 400, rawHistogram flattened width count space i b =
          ∑ j ∈ Finset.range count, a.evalFlat width j) := by
  refine ⟨sum_rawHistogram flattened width count space i, ?_, ?_⟩
  · intro h
    rw [sum_rawHistogram]
    simp [histogramWeight_of_none h]
  · intro l0 a hfl ha hne hl0
    rw [sum_rawHistogram]
    refine Finset.sum_congr rfl fun j _ => ?_
    rw [hfl]
    exact histogramWeight_alpha_last l0 a width j ha hne hl0

/-- C3 (witness): the amended statement applied to the concrete flattened
group `[R, A]` on a 2 by 1 image: the bin sum equals the sum of the alpha
values. -/
theorem rawHistogram_sum_spec_witness :
    ([exChannelR, exChannelA] = [exChannelR] ++ [exChannelA]) ∧
      exChannelA.name = "A" ∧ ([exChannelR] : List Channel) ≠ [] ∧
      (∑ b ∈ Finset.range 400,
          rawHistogram [exChannelR, exChannelA] 2 2 EHistogramSpace.Linear 0 b =
        ∑ j ∈ Finset.range 2, exChannelA.evalFlat 2 j) :=
  ⟨rfl, rfl, by simp,
    (rawHistogram_sum_spec [exChannelR, exChannelA] 2 2 EHistogramSpace.Linear
        0).2.2
      [exChannelR] exChannelA rfl rfl (by simp)
      (fun c hc => by
        rw [List.mem_singleton.mp hc]
        simp [exChannelR])⟩

/-- C3 (counterexample): for the flattened group `[R, A]` on a 2 by 1 image —
an alpha channel and exactly one non-alpha channel, so the claim's condition
"more than one non-alpha channel exists" fails and the claim demands the bin
sum equal the pixel count 2 — the bin sum is the alpha sum 1 instead: the code
weights by alpha already when at least one (not "more than one") non-alpha
channel exists. -/
theorem rawHistogram_cex :
    exChannelR.name ≠ "A" ∧ exChannelA.name = "A" ∧
      (∑ b ∈ Finset.range 400,
          rawHistogram [exChannelR, exChannelA] 2 2 EHistogramSpace.Linear 0 b
        = 1) ∧
      (1 : ℝ) ≠ (2 : ℝ) := by
  refine ⟨by simp [exChannelR], rfl, ?_, by norm_num⟩
  rw [sum_rawHistogram]
  have hw : ∀ j, histogramWeight [exChannelR, exChannelA] 2 j = 1 / 2 := by
    intro j
    rw [show ([exChannelR, exChannelA] : List Channel)
        = [exChannelR] ++ [exChannelA] from rfl]
    rw [histogramWeight_alpha_last [exChannelR] exChannelA 2 j rfl (by simp)
      (fun c hc => by
        rw [List.mem_singleton.mp hc]
        simp [exChannelR])]
    rfl
  rw [Finset.sum_congr rfl (fun j _ => hw j)]
  norm_num

/-- A fold by a right-commutative function is invariant under permutation of
the list. -/
theorem foldl_perm {α β : Type} (f : β → α → β)
    (hf : ∀ b a1 a2, f (f b a1) a2 = f (f b a2) a1)
    {l1 l2 : List α} (p : l1.Perm l2) (b : β) :
    l1.foldl f b = l2.foldl f b := by
  haveI : RightCommutative f := ⟨hf⟩
  exact p.foldl_eq b

/-- Swapping index `k` with the last slot and then dropping the last element
leaves, up to permutation, the list with index `k` erased. -/
theorem take_swapToBack_perm {α : Type} [Inhabited α] (l : List α) (k : ℕ)
    (hk : k < l.length) :
    ((swapToBack l k).take (l.length - 1)).Perm (l.eraseIdx k) := by
  unfold swapToBack
  by_cases hkl : k = l.length - 1
  · rw [if_pos hkl, hkl, List.eraseIdx_eq_take_drop_succ,
      List.drop_eq_nil_of_le (by omega), List.append_nil]
  · rw [if_neg hkl]
    have hk1 : k < l.length - 1 := by omega
    rw [List.set_take, List.set_eq_of_length_le (by simp), List.set_take,
      List.set_eq_take_cons_drop _ (by rw [List.length_take]; omega),
      List.take_take, min_eq_left (by omega : k ≤ l.length - 1), List.drop_take]
    refine List.perm_middle.trans ?_
    have hsplit : l.drop (k + 1) =
        (l.drop (k + 1)).take (l.length - 1 - (k + 1)) ++
          [l.getD (l.length - 1) default] := by
      conv_lhs =>
        rw [← List.take_append_drop (l.length - 1 - (k + 1)) (l.drop (k + 1))]
      congr 1
      rw [List.drop_drop,
        (by omega : k + 1 + (l.length - 1 - (k + 1)) = l.length - 1),
        List.drop_eq_getElem_cons (by omega),
        (by omega : l.length - 1 + 1 = l.length), List.drop_length,
        List.getD_eq_getElem l default (by omega)]
    rw [List.eraseIdx_eq_take_drop_succ]
    conv_rhs => rw [hsplit]
    rw [← List.append_assoc]
    exact (List.perm_append_singleton _ _).symm

/-- `findIdx?` finds the first index satisfying the predicate, for any start
offset. -/
theorem findIdx?_eq_some_of (p : Channel → Bool) (l : List Channel) (k : ℕ)
    (hk : k < l.length) (hpk : p (l.getD k default) = true)
    (hlt : ∀ i, i < k → p (l.getD i default) = false) :
    ∀ s, List.findIdx? p l s = some (s + k) := by
  induction l generalizing k with
  | nil => exact absurd hk (by simp)
  | cons a as ih =>
    intro s
    rw [List.findIdx?_cons]
    cases k with
    | zero =>
      rw [show p a = true from by simpa using hpk]
      simp
    | succ k2 =>
      rw [show p a = false from by simpa using hlt 0 (Nat.succ_pos k2)]
      simp only [if_neg Bool.false_ne_true]
      rw [ih k2 (by simpa using hk) (by simpa using hpk)
        (fun i hi => by simpa using hlt (i + 1) (by omega)) (s + 1)]
      congr 1
      omega

/-- The alpha index of a channel vector whose unique "A"-named channel sits at
index `k`, provided some channel is not named "A". -/
theorem alphaIndex_eq_some (flattened : List Channel) (k : ℕ)
    (hk : k < flattened.length)
    (hka : (flattened.getD k default).name = "A")
    (hlt : ∀ i, i < k → (flattened.getD i default).name ≠ "A")
    (hnon : ∃ c ∈ flattened, c.name ≠ "A") :
    alphaIndex flattened = some k := by
  unfold alphaIndex
  rw [if_neg]
  · have h := findIdx?_eq_some_of (fun c => c.name == "A") flattened k hk
      (by simpa using hka) (fun i hi => by simpa using hlt i hi) 0
    simpa using h
  · intro hall
    obtain ⟨c, hc, hcn⟩ := hnon
    exact hcn (hall c hc)

/-- With a singled-out alpha channel at slot `k`, the channels used for
extrema and the histogram are the swapped vector without its last element. -/
theorem usedChannels_of_some {flattened : List Channel} {k : ℕ}
    (h : alphaIndex flattened = some k) :
    usedChannels flattened =
      (swapToBack flattened k).take (flattened.length - 1) := by
  unfold usedChannels flattenedSwapped statsNChannels
  rw [h]

/-- The `maximum` accumulator is invariant under permutation of the used
channels. -/
theorem statsMaximum_perm {l1 l2 : List Channel} (p : l1.Perm l2)
    (width count : ℕ) :
    statsMaximum l1 width count = statsMaximum l2 width count := by
  unfold statsMaximum
  refine foldl_perm _ (fun b a1 a2 => ?_) p ⊥
  rw [max_assoc, max_comm ((chanMax a1 width count : ℝ) : WithBot ℝ) _,
    ← max_assoc]

/-- The `minimum` accumulator is invariant under permutation of the used
channels. -/
theorem statsMinimum_perm {l1 l2 : List Channel} (p : l1.Perm l2)
    (width count : ℕ) :
    statsMinimum l1 width count = statsMinimum l2 width count := by
  unfold statsMinimum
  refine foldl_perm _ (fun b a1 a2 => ?_) p ⊤
  rw [min_assoc, min_comm ((chanMin a1 width count : ℝ) : WithTop ℝ) _,
    ← min_assoc]

/-- The `mean` accumulator is invariant under permutation of the used
channels. -/
theorem statsMeanSum_perm {l1 l2 : List Channel} (p : l1.Perm l2)
    (width count : ℕ) :
    statsMeanSum l1 width count = statsMeanSum l2 width count := by
  unfold statsMeanSum
  exact foldl_perm _
    (fun b a1 a2 =>
      add_right_comm b (chanMean a1 width count) (chanMean a2 width count))
    p 0

/-- `getD` of a mapped index range evaluates the function. -/
theorem getD_map_range {β : Type} [Inhabited β] (f : ℕ → β) (n i : ℕ)
    (hi : i < n) :
    ((List.range n).map f).getD i default = f i := by
  rw [List.getD_eq_getElem _ _ (by simpa using hi), List.getElem_map,
    List.getElem_range]

/-- The flattening produces one channel per requested channel name. -/
theorem length_channelsFromImages (img : Image) (reference : Option Image)
    (group : String) (metric : EMetric) :
    (channelsFromImages (some img) reference group metric).length =
      (img.groups group).length := by
  cases reference with
  | none => simp [channelsFromImages]
  | some ref =>
    by_cases hm : metric = EMetric.RelativeSquaredError2 <;>
      simp [channelsFromImages, hm]

/-- The name of the `i`-th flattened channel (reference set, metric other
than `RelativeSquaredError2`) is the uppercased tail of the `i`-th requested
channel name. -/
theorem channelsFromImages_name (img ref : Image) (group : String)
    (metric : EMetric) (hm : metric ≠ EMetric.RelativeSquaredError2)
    (i : ℕ) (hi : i < (img.groups group).length) :
    ((channelsFromImages (some img) (some ref) group metric).getD i
        default).name
      = flatChannelName ((img.groups group).getD i "") := by
  simp only [channelsFromImages]
  rw [if_neg hm, getD_map_range _ _ _ hi]

/-- C4 (amended): when a reference is set, the metric is not
`RelativeSquaredError2`, the requested group has a unique alpha channel (at
index `k`, within the reference group's channel list) and at least one
non-alpha channel, then flattening maps each pixel of the alpha channel to
`0.5 * (imageAlpha + referenceAlpha)` instead of applying the metric, and the
mean/minimum/maximum accumulators range exactly over the non-alpha flattened
channels (the flattened list with the alpha channel erased, up to
permutation). -/
theorem channelsFromImages_alpha_spec (img ref : Image) (group : String)
    (metric : EMetric) (k width count : ℕ)
    (hm : metric ≠ EMetric.RelativeSquaredError2)
    (hk : k < (img.groups group).length)
    (hka : flatChannelName ((img.groups group).getD k "") = "A")
    (hother : ∀ i, i < (img.groups group).length → i ≠ k →
      flatChannelName ((img.groups group).getD i "") ≠ "A")
    (hnon : ∃ i, i < (img.groups group).length ∧
      flatChannelName ((img.groups group).getD i "") ≠ "A")
    (hkref : k < (ref.groups group).length) :
    (∀ x y : ℤ,
      ((channelsFromImages (some img) (some ref) group metric).getD k
          default).eval2 x y =
        0.5 * (img.channelData ((img.groups group).getD k "") x y +
          ref.channelData ((ref.groups group).getD k "")
            (x + Int.tdiv ((ref.width : ℤ) - (img.width : ℤ)) 2)
            (y + Int.tdiv ((ref.height : ℤ) - (img.height : ℤ)) 2))) ∧
      statsMaximum
          (usedChannels (channelsFromImages (some img) (some ref) group metric))
          width count =
        statsMaximum
          ((channelsFromImages (some img) (some ref) group metric).eraseIdx k)
          width count ∧
      statsMinimum
          (usedChannels (channelsFromImages (some img) (some ref) group metric))
          width count =
        statsMinimum
          ((channelsFromImages (some img) (some ref) group metric).eraseIdx k)
          width count ∧
      statsMeanSum
          (usedChannels (channelsFromImages (some img) (some ref) group metric))
          width count =
        statsMeanSum
          ((channelsFromImages (some img) (some ref) group metric).eraseIdx k)
          width count ∧
      (∀ c ∈ (channelsFromImages (some img) (some ref) group metric).eraseIdx k,
        c.name ≠ "A") := by
  have hlen := length_channelsFromImages img (some ref) group metric
  have hkf : k < (channelsFromImages (some img) (some ref) group metric).length := by
    rw [hlen]
    exact hk
  have honly : ¬∀ n ∈ img.groups group, flatChannelName n = "A" := by
    intro hall
    obtain ⟨i0, hi0, hi0n⟩ := hnon
    refine hi0n (hall ((img.groups group).getD i0 "") ?_)
    rw [List.getD_eq_getElem _ _ hi0]
    exact List.getElem_mem hi0
  have halpha : alphaIndex (channelsFromImages (some img) (some ref) group
      metric) = some k := by
    refine alphaIndex_eq_some _ k hkf ?_ ?_ ?_
    · rw [channelsFromImages_name img ref group metric hm k hk]
      exact hka
    · intro i hi
      rw [channelsFromImages_name img ref group metric hm i (by omega)]
      exact hother i (by omega) (by omega)
    · obtain ⟨i0, hi0, hi0n⟩ := hnon
      refine ⟨(channelsFromImages (some img) (some ref) group metric).getD i0
        default, ?_, ?_⟩
      · rw [List.getD_eq_getElem _ _ (by rw [hlen]; exact hi0)]
        exact List.getElem_mem _
      · rw [channelsFromImages_name img ref group metric hm i0 hi0]
        exact hi0n
  have hperm : (usedChannels (channelsFromImages (some img) (some ref) group
      metric)).Perm
      ((channelsFromImages (some img) (some ref) group metric).eraseIdx k) := by
    rw [usedChannels_of_some halpha]
    exact take_swapToBack_perm _ k hkf
  refine ⟨?_, statsMaximum_perm hperm width count,
    statsMinimum_perm hperm width count, statsMeanSum_perm hperm width count,
    ?_⟩
  · intro x y
    simp only [channelsFromImages]
    rw [if_neg hm, getD_map_range _ _ _ hk]
    show (if k < (ref.groups group).length then _ else _) = _
    rw [if_pos hkref, if_pos ⟨honly, hka⟩]
  · intro c hc
    rw [List.eraseIdx_eq_take_drop_succ] at hc
    rcases List.mem_append.mp hc with h1 | h2
    · obtain ⟨i, hilen, hce⟩ := List.mem_iff_getElem.mp h1
      rw [List.length_take] at hilen
      have hik : i < k := lt_of_lt_of_le hilen (min_le_left _ _)
      have hiL : i < (channelsFromImages (some img) (some ref) group
          metric).length := lt_of_lt_of_le hilen (min_le_right _ _)
      rw [List.getElem_take] at hce
      have hcn : c.name = flatChannelName ((img.groups group).getD i "") := by
        rw [← hce, ← List.getD_eq_getElem _ default hiL]
        exact channelsFromImages_name img ref group metric hm i
          (by rw [← hlen]; exact hiL)
      rw [hcn]
      exact hother i (by rw [← hlen]; exact hiL) (by omega)
    · obtain ⟨j, hjlen, hce⟩ := List.mem_iff_getElem.mp h2
      rw [List.length_drop] at hjlen
      have hjL : k + 1 + j < (channelsFromImages (some img) (some ref) group
          metric).length := by omega
      rw [List.getElem_drop] at hce
      have hcn : c.name
          = flatChannelName ((img.groups group).getD (k + 1 + j) "") := by
        rw [← hce, ← List.getD_eq_getElem _ default hjL]
        exact channelsFromImages_name img ref group metric hm (k + 1 + j)
          (by rw [← hlen]; exact hjL)
      rw [hcn]
      exact hother (k + 1 + j) (by rw [← hlen]; exact hjL) (by omega)

/-- A sample 1 by 1 image whose requested group is `[R, A]`, all pixel values
1. -/
noncomputable def exImg : Image :=
  { width := 1, height := 1, groups := fun _ => ["R", "A"],
    channelData := fun _ _ _ => 1, id := 0 }

/-- A sample 1 by 1 reference image with the same group, all pixel values
0. -/
noncomputable def exRef : Image :=
  { width := 1, height := 1, groups := fun _ => ["R", "A"],
    channelData := fun _ _ _ => 0, id := 1 }

/-- C4 (counterexample): under the `RelativeSquaredError2` metric the
flattening branch does not special-case alpha: with image values 1 and
reference values 0 on the group `[R, A]`, the alpha channel is flattened to
the joint error `(2/3) / (0 + 0.01) = 200/3`, not to the average
`0.5 * (1 + 0) = 0.5` the claim demands. -/
theorem channelsFromImages_alpha_cex :
    flatChannelName ((exImg.groups "g").getD 1 "") = "A" ∧
      ((channelsFromImages (some exImg) (some exRef) "g"
          EMetric.RelativeSquaredError2).getD 1 default).eval2 0 0 = 200 / 3 ∧
      (200 / 3 : ℝ) ≠
        0.5 * (exImg.channelData "A" 0 0 + exRef.channelData "A" 0 0) := by
  refine ⟨by decide, ?_, ?_⟩
  · simp only [channelsFromImages, exImg, exRef, if_true]
    rw [getD_map_range _ _ _ (by simp)]
    show (∑ _c ∈ Finset.range (["R", "A"].length), ((1 : ℝ) - 0) ^ 2) / 3 /
        ((∑ _c ∈ Finset.range (["R", "A"].length), (0 : ℝ)) / 3 *
          ((∑ _c ∈ Finset.range (["R", "A"].length), (0 : ℝ)) / 3) + 1 / 100)
      = 200 / 3
    norm_num
  · simp only [exImg, exRef]
    norm_num

/-- C4 (witness): the amended statement applied to the sample images under
the `Error` metric: the alpha channel of the group `[R, A]` is averaged. -/
theorem channelsFromImages_alpha_spec_witness :
    (EMetric.Error ≠ EMetric.RelativeSquaredError2) ∧
      1 < (exImg.groups "g").length ∧
      flatChannelName ((exImg.groups "g").getD 1 "") = "A" ∧
      (∀ x y : ℤ,
        ((channelsFromImages (some exImg) (some exRef) "g"
            EMetric.Error).getD 1 default).eval2 x y =
          0.5 * (exImg.channelData ((exImg.groups "g").getD 1 "") x y +
            exRef.channelData ((exRef.groups "g").getD 1 "")
              (x + Int.tdiv ((exRef.width : ℤ) - (exImg.width : ℤ)) 2)
              (y + Int.tdiv ((exRef.height : ℤ) - (exImg.height : ℤ)) 2))) :=
  ⟨by decide, by decide, by decide,
    (channelsFromImages_alpha_spec exImg exRef "g" EMetric.Error 1 1 1
      (by decide) (by decide) (by decide)
      (fun i hi hne => by
        have hi2 : i < 2 := by simpa [exImg] using hi
        interval_cases i
        · decide
        · exact absurd rfl hne)
      ⟨0, by decide, by decide⟩ (by decide)).1⟩

/-- Component `i` of pixel `j` of the flattened export buffer right after the
channel copy loop of `ImageCanvas::getHdrImageData` (the buffer was resized to
`4 * numPixels` zeros, then `result[j*4+i] = channels[i].data()(j)` for the
first `min(channels, 4)` components). -/
noncomputable def hdrPre (channels : List Channel) (width : ℕ) (j i : ℕ) : ℝ :=
  if i < min channels.length 4 then (channels.getD i default).evalFlat width j
  else 0

/-- The buffer after the missing-alpha fill: when fewer than 4 channels are
saved, component 3 of every pixel is set to 1. -/
noncomputable def hdrFilled (channels : List Channel) (width : ℕ) (j i : ℕ) :
    ℝ :=
  if min channels.length 4 < 4 ∧ i = 3 then 1 else hdrPre channels width j i

/-- The buffer after the optional un-premultiply loop: when `divideAlpha` is
set, each of the first `min(nChannelsToSave, 3)` components of a pixel is set
to 0 if the pixel's alpha is exactly 0, and divided by the alpha otherwise. -/
noncomputable def hdrDatum (channels : List Channel) (width : ℕ)
    (divideAlpha : Bool) (j i : ℕ) : ℝ :=
  if divideAlpha ∧ i < min (min channels.length 4) 3 then
    if hdrFilled channels width j 3 = 0 then 0
    else hdrFilled channels width j i / hdrFilled channels width j 3
  else hdrFilled channels width j i

/-- `ImageCanvas::getHdrImageData(bool divideAlpha)`: empty without an image
or when the flattening yields no channels; otherwise the interleaved
`4 * numPixels` buffer, entry `j*4+i` holding component `i` of pixel `j`. -/
noncomputable def getHdrImageData (image reference : Option Image)
    (requestedChannelGroup : String) (metric : EMetric) (divideAlpha : Bool) :
    List ℝ :=
  match image with
  | none => []
  | some img =>
    let channels :=
      channelsFromImages (some img) reference requestedChannelGroup metric
    if channels.isEmpty then []
    else
      (List.range (4 * img.count)).map
        (fun idx => hdrDatum channels img.width divideAlpha (idx / 4) (idx % 4))

/-- `getD` of a mapped index range with explicit default 0. -/
theorem getD_map_range_zero (f : ℕ → ℝ) (n i : ℕ) (hi : i < n) :
    ((List.range n).map f).getD i 0 = f i := by
  rw [List.getD_eq_getElem _ _ (by simpa using hi), List.getElem_map,
    List.getElem_range]

/-- A pixel with zero alpha has its colour components zeroed rather than
divided by alpha. -/
theorem hdrDatum_alpha_zero (channels : List Channel) (width j : ℕ)
    (halpha : hdrFilled channels width j 3 = 0) :
    ∀ i, i < 3 → hdrDatum channels width true j i = 0 := by
  intro i hi
  unfold hdrDatum
  by_cases hlt : i < min (min channels.length 4) 3
  · rw [if_pos ⟨rfl, hlt⟩, if_pos halpha]
  · rw [if_neg (fun h => hlt h.2)]
    unfold hdrFilled
    rw [if_neg (by omega : ¬(min channels.length 4 < 4 ∧ i = 3))]
    unfold hdrPre
    rw [if_neg (by omega : ¬i < min channels.length 4)]

/-- The divide step never inspects component 3 itself: the alpha slot of the
buffer is unchanged by the un-premultiply loop. -/
theorem hdrDatum_three (channels : List Channel) (width j : ℕ)
    (divideAlpha : Bool) :
    hdrDatum channels width divideAlpha j 3 = hdrFilled channels width j 3 := by
  unfold hdrDatum
  rw [if_neg (by omega : ¬(divideAlpha = true ∧ 3 < min (min channels.length 4) 3))]

/-- C10: in `getHdrImageData` with `divideAlpha = true`, every pixel whose
alpha component equals exactly 0 has its first three (colour) components set
to 0 instead of being divided by alpha, so the un-premultiply step never
divides by a zero alpha. -/
theorem getHdrImageData_divideAlpha_safe (reference : Option Image)
    (group : String) (metric : EMetric) (img : Image) (j : ℕ)
    (hj : j < img.count)
    (hne : (channelsFromImages (some img) reference group metric).isEmpty
      = false)
    (halpha : (getHdrImageData (some img) reference group metric true).getD
      (4 * j + 3) 0 = 0) :
    (getHdrImageData (some img) reference group metric true).getD (4 * j) 0
        = 0 ∧
      (getHdrImageData (some img) reference group metric true).getD
        (4 * j + 1) 0 = 0 ∧
      (getHdrImageData (some img) reference group metric true).getD
        (4 * j + 2) 0 = 0 := by
  have hgd : ∀ i, i < 4 → (getHdrImageData (some img) reference group metric
      true).getD (4 * j + i) 0 =
        hdrDatum (channelsFromImages (some img) reference group metric)
          img.width true j i := by
    intro i hi
    simp only [getHdrImageData, hne, Bool.false_eq_true, if_false]
    rw [getD_map_range_zero _ _ _ (by omega)]
    rw [(by omega : (4 * j + i) / 4 = j), (by omega : (4 * j + i) % 4 = i)]
  rw [hgd 3 (by omega)] at halpha
  rw [hdrDatum_three] at halpha
  have h0 := hdrDatum_alpha_zero _ img.width j halpha
  refine ⟨?_, ?_, ?_⟩
  · rw [(by omega : 4 * j = 4 * j + 0), hgd 0 (by omega)]
    exact h0 0 (by omega)
  · rw [hgd 1 (by omega)]
    exact h0 1 (by omega)
  · rw [hgd 2 (by omega)]
    exact h0 2 (by omega)

/-- Without a reference, the `i`-th flattened channel is a plain copy of the
`i`-th requested image channel. -/
theorem channelsFromImages_none_getD (img : Image) (group : String)
    (metric : EMetric) (i : ℕ) (hi : i < (img.groups group).length) :
    (channelsFromImages (some img) none group metric).getD i default =
      { name := flatChannelName ((img.groups group).getD i ""),
        eval2 := fun x y =>
          img.channelData ((img.groups group).getD i "") x y } := by
  simp only [channelsFromImages]
  rw [getD_map_range _ _ _ hi]

/-- A sample 1 by 1 RGBA image, all pixel values 0 (in particular zero
alpha). -/
noncomputable def exImgRGBA : Image :=
  { width := 1, height := 1, groups := fun _ => ["R", "G", "B", "A"],
    channelData := fun _ _ _ => 0, id := 2 }

/-- C10 (witness): the zero-alpha safety statement applied to a 1 by 1 RGBA
image whose only pixel has alpha 0. -/
theorem getHdrImageData_divideAlpha_safe_witness :
    0 < exImgRGBA.count ∧
      (channelsFromImages (some exImgRGBA) none "g" EMetric.Error).isEmpty
        = false ∧
      (getHdrImageData (some exImgRGBA) none "g" EMetric.Error true).getD 3 0
        = 0 ∧
      ((getHdrImageData (some exImgRGBA) none "g" EMetric.Error true).getD 0 0
          = 0 ∧
        (getHdrImageData (some exImgRGBA) none "g" EMetric.Error true).getD 1 0
          = 0 ∧
        (getHdrImageData (some exImgRGBA) none "g" EMetric.Error true).getD 2 0
          = 0) := by
  have hL : (channelsFromImages (some exImgRGBA) none "g"
      EMetric.Error).length = 4 := by
    rw [length_channelsFromImages]
    rfl
  have hfalse : ¬((channelsFromImages (some exImgRGBA) none "g"
      EMetric.Error).isEmpty = true) := by
    decide
  have halpha0 : (getHdrImageData (some exImgRGBA) none "g" EMetric.Error
      true).getD 3 0 = 0 := by
    simp only [getHdrImageData]
    rw [if_neg hfalse, getD_map_range_zero _ _ _ (by decide),
      (by norm_num : (3 : ℕ) / 4 = 0), (by norm_num : (3 : ℕ) % 4 = 3),
      hdrDatum_three]
    unfold hdrFilled
    rw [if_neg (by rw [hL]; omega)]
    unfold hdrPre
    rw [if_pos (by rw [hL]; omega),
      channelsFromImages_none_getD exImgRGBA "g" EMetric.Error 3 (by decide)]
    unfold Channel.evalFlat
    simp [exImgRGBA]
  refine ⟨by decide, by decide, halpha0, ?_⟩
  have hmain := getHdrImageData_divideAlpha_safe none "g" EMetric.Error
    exImgRGBA 0 (by decide) (by decide) (by simpa using halpha0)
  simpa using hmain

/-- An axis-aligned integer box (`Box2i`), used for the crop region in image
coordinates. -/
structure Box2i where
  min : ℤ × ℤ
  max : ℤ × ℤ

/-- Modelled from the spec: `Box2i::isValid` (declared outside the provided
sources) holds when the box denotes a nonempty region, `min < max` per axis;
crops are sanitised to `min ≤ max` on every set and an absent crop means the
whole image. -/
def Box2i.isValid (b : Box2i) : Prop := b.min.1 < b.max.1 ∧ b.min.2 < b.max.2

instance (b : Box2i) : Decidable b.isValid := by
  unfold Box2i.isValid
  infer_instance

/-- Modelled from the spec: `Channel::isAlpha(name)` (declared in `Channel.h`,
not among the provided sources) — whether the uppercased tail of the channel
name is "A". -/
def isAlphaName (s : String) : Bool := flatChannelName s == "A"

/-- The `ChannelProcessContext` of `ImageViewer.h`: the resolved channels of
the current group, the matching reference channels, the alpha flags, the image
size, the reference centering offset, the iteration bounds (the crop region
when a valid crop is set, the whole image otherwise) and the reference
flag. -/
structure ChannelProcessContext where
  channelNames : List String
  channels : List Channel
  referenceChannels : List Channel
  isAlpha : List Bool
  size : ℤ × ℤ
  refOffset : ℤ × ℤ
  minX : ℤ
  maxX : ℤ
  minY : ℤ
  maxY : ℤ
  hasReference : Bool

/-- `ImageViewer::buildChannelProcessContext`: fails without a current image
or with an empty channel group; otherwise resolves channels, reference
channels, alpha flags, the reference offset `(referenceSize - imageSize) / 2`,
and the iteration bounds — `[0, size)` per axis, overridden by the crop region
when `cropInImageCoords()` is valid. -/
noncomputable def buildChannelProcessContext (currentImage : Option Image)
    (currentReference : Option Image) (group : String) (crop : Option Box2i) :
    Option ChannelProcessContext :=
  match currentImage with
  | none => none
  | some img =>
    let names := img.groups group
    if names.isEmpty then none
    else some
      { channelNames := names,
        channels := names.map (fun n => ⟨n, img.channelData n⟩),
        referenceChannels :=
          match currentReference with
          | some ref => names.map (fun n => ⟨n, ref.channelData n⟩)
          | none => [],
        isAlpha := names.map (fun n => isAlphaName n),
        size := ((img.width : ℤ), (img.height : ℤ)),
        refOffset :=
          match currentReference with
          | some ref =>
            (Int.tdiv ((ref.width : ℤ) - (img.width : ℤ)) 2,
              Int.tdiv ((ref.height : ℤ) - (img.height : ℤ)) 2)
          | none => (0, 0),
        minX :=
          match crop with
          | some region => if region.isValid then region.min.1 else 0
          | none => 0,
        maxX :=
          match crop with
          | some region =>
            if region.isValid then region.max.1 else (img.width : ℤ)
          | none => (img.width : ℤ),
        minY :=
          match crop with
          | some region => if region.isValid then region.min.2 else 0
          | none => 0,
        maxY :=
          match crop with
          | some region =>
            if region.isValid then region.max.2 else (img.height : ℤ)
          | none => (img.height : ℤ),
        hasReference := currentReference.isSome }

/-- The integer interval `[a, b)`, the iteration space of the x and y loops of
`forEachChannelPixelValue`. -/
def intRange (a b : ℤ) : List ℤ :=
  (List.range (b - a).toNat).map (fun (k : ℕ) => a + (k : ℤ))

/-- Membership in the integer interval `[a, b)`. -/
theorem mem_intRange {a b x : ℤ} : x ∈ intRange a b ↔ a ≤ x ∧ x < b := by
  unfold intRange
  simp only [List.mem_map, List.mem_range]
  constructor
  · rintro ⟨k, hk, rfl⟩
    omega
  · rintro ⟨h1, h2⟩
    exact ⟨(x - a).toNat, by omega, by omega⟩

/-- The per-pixel value reported by `forEachChannelPixelValue`: with a
reference, alpha channels average against the reference alpha (1 when the
reference lacks the channel) and other channels apply the metric (reference
value 0 when the channel is missing); without a reference the plain channel
value. -/
noncomputable def ctxPixelValue (ctx : ChannelProcessContext)
    (metric : EMetric) (ci : ℕ) (x y : ℤ) : ℝ :=
  let chan := ctx.channels.getD ci default
  if ctx.hasReference then
    if ctx.isAlpha.getD ci false then
      0.5 * (chan.eval2 x y +
        (if ci < ctx.referenceChannels.length then
          (ctx.referenceChannels.getD ci default).eval2 (x + ctx.refOffset.1)
            (y + ctx.refOffset.2)
        else 1))
    else
      applyMetric (chan.eval2 x y)
        (if ci < ctx.referenceChannels.length then
          (ctx.referenceChannels.getD ci default).eval2 (x + ctx.refOffset.1)
            (y + ctx.refOffset.2)
        else 0) metric
  else chan.eval2 x y

/-- `ImageViewer::forEachChannelPixelValue`: the sequence of callback
invocations `(ci, x, y, val)` — for every channel index, every `y` in
`[minY, maxY)` and every `x` in `[minX, maxX)`. -/
noncomputable def forEachChannelPixelValue (ctx : ChannelProcessContext)
    (metric : EMetric) : List (ℕ × ℤ × ℤ × ℝ) :=
  (List.range ctx.channels.length).flatMap (fun ci =>
    (intRange ctx.minY ctx.maxY).flatMap (fun y =>
      (intRange ctx.minX ctx.maxX).map (fun x =>
        (ci, x, y, ctxPixelValue ctx metric ci x y))))

/-- A pixel is visited by `forEachChannelPixelValue` exactly when its channel
index is in range and its coordinates are within the iteration bounds. -/
theorem mem_forEachChannelPixelValue (ctx : ChannelProcessContext)
    (metric : EMetric) (ci : ℕ) (x y : ℤ) :
    (∃ v, (ci, x, y, v) ∈ forEachChannelPixelValue ctx metric) ↔
      (ci < ctx.channels.length ∧ (ctx.minX ≤ x ∧ x < ctx.maxX) ∧
        (ctx.minY ≤ y ∧ y < ctx.maxY)) := by
  unfold forEachChannelPixelValue
  constructor
  · rintro ⟨v, hv⟩
    simp only [List.mem_flatMap, List.mem_map, List.mem_range,
      Prod.mk.injEq] at hv
    obtain ⟨ci2, hci2, y2, hy2, x2, hx2, hc, hx, hy, _⟩ := hv
    subst hc
    subst hx
    subst hy
    exact ⟨hci2, mem_intRange.mp hx2, mem_intRange.mp hy2⟩
  · rintro ⟨hci, hx, hy⟩
    refine ⟨ctxPixelValue ctx metric ci x y, ?_⟩
    simp only [List.mem_flatMap, List.mem_map, List.mem_range, Prod.mk.injEq]
    exact ⟨ci, hci, y, mem_intRange.mpr hy, x, mem_intRange.mpr hx,
      rfl, rfl, rfl, rfl⟩

/-- C8: with the crop box `{min:(2,2), max:(10,10)}` set on a 20 by 20 image,
the pixel-locator iteration (shared by Find Max, Find Min and the range
search) visits, for each channel of the group, exactly the pixels with
`2 ≤ x < 10` and `2 ≤ y < 10`, and never visits or reports a pixel outside
that crop region. -/
theorem forEach_crop_spec (img : Image) (reference : Option Image)
    (group : String) (metric : EMetric) (ctx : ChannelProcessContext)
    (_hw : img.width = 20) (_hh : img.height = 20)
    (hbuild : buildChannelProcessContext (some img) reference group
      (some ⟨(2, 2), (10, 10)⟩) = some ctx) (ci : ℕ) (x y : ℤ) :
    (∃ v, (ci, x, y, v) ∈ forEachChannelPixelValue ctx metric) ↔
      (ci < ctx.channels.length ∧ (2 ≤ x ∧ x < 10) ∧ (2 ≤ y ∧ y < 10)) := by
  have hvalid : (Box2i.mk (2, 2) (10, 10)).isValid := by
    constructor <;> norm_num
  have hctx : ctx.minX = 2 ∧ ctx.maxX = 10 ∧ ctx.minY = 2 ∧ ctx.maxY = 10 := by
    simp only [buildChannelProcessContext] at hbuild
    by_cases hempty : (img.groups group).isEmpty
    · rw [if_pos hempty] at hbuild
      exact absurd hbuild (by simp)
    · rw [if_neg hempty] at hbuild
      have hrec := Option.some.inj hbuild
      rw [← hrec]
      refine ⟨?_, ?_, ?_, ?_⟩ <;> simp [hvalid]
  rw [mem_forEachChannelPixelValue, hctx.1, hctx.2.1, hctx.2.2.1, hctx.2.2.2]

/-- A sample 20 by 20 single-channel image. -/
noncomputable def exImg20 : Image :=
  { width := 20, height := 20, groups := fun _ => ["R"],
    channelData := fun _ _ _ => 0, id := 3 }

/-- The context built for `exImg20` with the crop box `(2,2)`-`(10,10)`. -/
noncomputable def ctxEx : ChannelProcessContext :=
  { channelNames := ["R"],
    channels := [⟨"R", exImg20.channelData "R"⟩],
    referenceChannels := [],
    isAlpha := [isAlphaName "R"],
    size := ((exImg20.width : ℤ), (exImg20.height : ℤ)),
    refOffset := (0, 0),
    minX := 2, maxX := 10, minY := 2, maxY := 10,
    hasReference := false }

/-- C8 (witness): on the 20 by 20 sample image with the crop box
`(2,2)`-`(10,10)`, pixel `(5, 5)` of channel 0 is visited and pixel `(0, 0)`
is not. -/
theorem forEach_crop_spec_witness :
    exImg20.width = 20 ∧ exImg20.height = 20 ∧
      buildChannelProcessContext (some exImg20) none "g"
          (some ⟨(2, 2), (10, 10)⟩) = some ctxEx ∧
      (∃ v, (0, 5, 5, v) ∈ forEachChannelPixelValue ctxEx EMetric.Error) ∧
      ¬(∃ v, (0, 0, 0, v) ∈ forEachChannelPixelValue ctxEx EMetric.Error) := by
  have hbuild : buildChannelProcessContext (some exImg20) none "g"
      (some ⟨(2, 2), (10, 10)⟩) = some ctxEx := rfl
  refine ⟨rfl, rfl, hbuild, ?_, ?_⟩
  · rw [forEach_crop_spec exImg20 none "g" EMetric.Error ctxEx rfl rfl hbuild
      0 5 5]
    refine ⟨by simp [ctxEx], by norm_num, by norm_num⟩
  · rw [forEach_crop_spec exImg20 none "g" EMetric.Error ctxEx rfl rfl hbuild
      0 0 0]
    rintro ⟨-, ⟨h, -⟩, -⟩
    norm_num at h

/-- C9 (witness): the out-of-range codes 4 (tonemap) and 7 (metric) throw. -/
theorem invalid_enum_throws_witness :
    ((4 : ℤ) < 0 ∨ 3 < (4 : ℤ)) ∧ ((7 : ℤ) < 0 ∨ 6 < (7 : ℤ)) ∧
      (applyTonemapE [] ((0, 0, 0) : Vec3) 1 4 = .error "Invalid tonemap selected." ∧
        applyMetricE 0 0 7 = .error "Invalid metric selected.") :=
  ⟨Or.inr (by norm_num), Or.inr (by norm_num),
    invalid_enum_throws [] ((0, 0, 0) : Vec3) 1 0 0 4 7 (Or.inr (by norm_num))
      (Or.inr (by norm_num))⟩

end Tev
